import Mathlib

/-!
# Verification of `inventory_system.py`

A shallow embedding of the inventory module: an in-memory mapping from item
name to quantity with `add_item`, `remove_item`, `get_qty`, `check_low_items`,
and JSON-file persistence via `load_data` / `save_data`.

Python dictionaries are modelled as association lists over `String` keys that
preserve insertion order and keep keys distinct.  Dynamically typed Python
values reaching the module (dictionary values and the `item`/`qty` arguments)
are modelled by `PVal`, covering the integer and string scalars the module
manipulates.  Exceptions that can arise inside the embedded fragment
(`KeyError` from reading an absent key, `TypeError` from arithmetic or
comparison on a non-integer) are modelled with `Except`; an operation whose
Python body cannot leak an exception is total.
-/

/-- A dynamically typed Python value: an integer or a string.  These are the
two scalar shapes the module's code paths distinguish with `isinstance`. -/
inductive PVal : Type
  | int : ℤ → PVal
  | str : String → PVal
  deriving DecidableEq, Repr

/-- Exceptions that the embedded code can raise: `KeyError` from indexing an
absent dictionary key, `TypeError` from `-`/`+`/`<` on a non-integer. -/
inductive PyExc : Type
  | keyError : PyExc
  | typeError : PyExc
  deriving DecidableEq, Repr

instance {ε α : Type} [DecidableEq ε] [DecidableEq α] :
    DecidableEq (Except ε α) := fun a b =>
  match a, b with
  | Except.ok x, Except.ok y =>
      if h : x = y then Decidable.isTrue (h ▸ rfl)
      else Decidable.isFalse fun c => h (Except.ok.inj c)
  | Except.error x, Except.error y =>
      if h : x = y then Decidable.isTrue (h ▸ rfl)
      else Decidable.isFalse fun c => h (Except.error.inj c)
  | Except.ok _, Except.error _ => Decidable.isFalse fun c => Except.noConfusion c
  | Except.error _, Except.ok _ => Decidable.isFalse fun c => Except.noConfusion c

/-- A Python dict from item name to value, as an insertion-ordered
association list with distinct keys. -/
abbrev Inventory : Type := List (String × PVal)

namespace Inventory

/-- `d.get(k)` / `d[k]`: first value bound to `k`. -/
def lookup (stock : Inventory) (k : String) : Option PVal :=
  match stock with
  | [] => none
  | (k', v) :: rest => if k' = k then some v else lookup rest k

/-- `d[k] = v`: overwrite in place if present (keeping the key's position),
else append at the end, as CPython dicts do. -/
def setKey (stock : Inventory) (k : String) (v : PVal) : Inventory :=
  match stock with
  | [] => [(k, v)]
  | (k', v') :: rest =>
      if k' = k then (k', v) :: rest else (k', v') :: setKey rest k v

/-- `del d[k]`: drop the binding of `k`. -/
def delKey (stock : Inventory) (k : String) : Inventory :=
  match stock with
  | [] => []
  | (k', v') :: rest =>
      if k' = k then rest else (k', v') :: delKey rest k

/-- Distinct keys, as in a Python dict. -/
def WF (stock : Inventory) : Prop := (stock.map Prod.fst).Nodup

/-- The spec's data-model invariant: every key present maps to a strictly
positive integer. -/
def invariant (stock : Inventory) : Bool :=
  stock.all fun p => match p.2 with
    | PVal.int n => decide (0 < n)
    | PVal.str _ => false

end Inventory

namespace Inventory

@[simp]
theorem lookup_nil (k : String) : lookup [] k = none := rfl

@[simp]
theorem lookup_cons (k' k : String) (v : PVal) (rest : Inventory) :
    lookup ((k', v) :: rest) k =
      if k' = k then some v else lookup rest k := rfl

@[simp]
theorem lookup_setKey_self (stock : Inventory) (k : String) (v : PVal) :
    lookup (setKey stock k v) k = some v := by
  induction stock with
  | nil => simp [setKey]
  | cons p rest ih =>
      obtain ⟨k', v'⟩ := p
      by_cases h : k' = k <;> simp [setKey, h, ih]

theorem lookup_setKey_ne (stock : Inventory) (k k' : String) (v : PVal)
    (h : k ≠ k') : lookup (setKey stock k v) k' = lookup stock k' := by
  induction stock with
  | nil => simp [setKey, h]
  | cons p rest ih =>
      obtain ⟨k₀, v₀⟩ := p
      by_cases h₀ : k₀ = k
      · subst h₀; simp [setKey, h]
      · simp only [setKey, if_neg h₀, lookup_cons, ih]

theorem lookup_delKey_ne (stock : Inventory) (k k' : String)
    (h : k ≠ k') : lookup (delKey stock k) k' = lookup stock k' := by
  induction stock with
  | nil => simp [delKey]
  | cons p rest ih =>
      obtain ⟨k₀, v₀⟩ := p
      by_cases h₀ : k₀ = k
      · subst h₀; simp [delKey, h, ih]
      · simp only [delKey, if_neg h₀, lookup_cons, ih]

theorem keys_setKey (stock : Inventory) (k : String) (v : PVal) :
    (setKey stock k v).map Prod.fst =
      if lookup stock k = none then stock.map Prod.fst ++ [k]
      else stock.map Prod.fst := by
  induction stock with
  | nil => simp [setKey]
  | cons p rest ih =>
      obtain ⟨k₀, v₀⟩ := p
      by_cases h₀ : k₀ = k
      · subst h₀; simp [setKey]
      · simp only [setKey, if_neg h₀, lookup_cons, List.map_cons]
        rw [ih]
        by_cases h : lookup rest k = none <;> simp [h, h₀]

theorem keys_delKey_subset (stock : Inventory) (k : String) :
    ∀ x ∈ (delKey stock k).map Prod.fst, x ∈ stock.map Prod.fst := by
  induction stock with
  | nil => simp [delKey]
  | cons p rest ih =>
      obtain ⟨k₀, v₀⟩ := p
      by_cases h₀ : k₀ = k
      · subst h₀
        simp only [delKey, if_pos rfl, List.map_cons]
        intro x hx
        exact List.mem_cons_of_mem _ hx
      · simp only [delKey, if_neg h₀, List.map_cons, List.mem_cons]
        intro x hx
        rcases hx with hx | hx
        · exact Or.inl hx
        · exact Or.inr (ih x hx)

theorem lookup_ne_none_of_mem_keys (stock : Inventory) (k : String)
    (h : k ∈ stock.map Prod.fst) : lookup stock k ≠ none := by
  induction stock with
  | nil => simp at h
  | cons p rest ih =>
      obtain ⟨k₀, v₀⟩ := p
      simp only [List.map_cons, List.mem_cons] at h
      by_cases h₀ : k₀ = k
      · simp [lookup_cons, h₀]
      · simp only [lookup_cons, if_neg h₀]
        exact ih (h.resolve_left fun hh => h₀ hh.symm)

theorem WF_setKey (stock : Inventory) (k : String) (v : PVal)
    (h : WF stock) : WF (setKey stock k v) := by
  unfold WF at h ⊢
  rw [keys_setKey]
  by_cases hk : lookup stock k = none
  · rw [if_pos hk, List.nodup_append]
    refine ⟨h, List.nodup_singleton k, ?_⟩
    intro x hx
    simp only [List.mem_singleton]
    intro hxk
    subst hxk
    -- x is a key of stock, contradicting `lookup stock k = none`
    exact lookup_ne_none_of_mem_keys stock x hx hk
  · rw [if_neg hk]
    exact h

theorem WF_delKey (stock : Inventory) (k : String)
    (h : WF stock) : WF (delKey stock k) := by
  induction stock with
  | nil => simpa [delKey] using h
  | cons p rest ih =>
      obtain ⟨k₀, v₀⟩ := p
      unfold WF at h
      simp only [List.map_cons, List.nodup_cons] at h
      by_cases h₀ : k₀ = k
      · subst h₀
        simpa [delKey, WF] using h.2
      · unfold WF
        simp only [delKey, if_neg h₀, List.map_cons, List.nodup_cons]
        refine ⟨fun hmem => h.1 (keys_delKey_subset rest k k₀ hmem), ?_⟩
        exact ih h.2

theorem lookup_eq_none (stock : Inventory) (k : String)
    (h : k ∉ stock.map Prod.fst) : lookup stock k = none := by
  induction stock with
  | nil => simp
  | cons p rest ih =>
      obtain ⟨k₀, v₀⟩ := p
      simp only [List.map_cons, List.mem_cons, not_or] at h
      simp only [lookup_cons, if_neg (fun hh : k₀ = k => h.1 hh.symm)]
      exact ih h.2

theorem lookup_delKey_self (stock : Inventory) (k : String)
    (h : WF stock) : lookup (delKey stock k) k = none := by
  induction stock with
  | nil => simp [delKey]
  | cons p rest ih =>
      obtain ⟨k₀, v₀⟩ := p
      unfold WF at h
      simp only [List.map_cons, List.nodup_cons] at h
      by_cases h₀ : k₀ = k
      · subst h₀
        simp only [delKey, if_pos rfl]
        exact lookup_eq_none rest k₀ h.1
      · simp only [delKey, if_neg h₀, lookup_cons, if_neg h₀]
        exact ih h.2

theorem invariant_iff (stock : Inventory) :
    invariant stock = true ↔
      ∀ p ∈ stock, ∃ n : ℤ, p.2 = PVal.int n ∧ 0 < n := by
  unfold invariant
  rw [List.all_eq_true]
  constructor
  · intro h p hp
    have := h p hp
    cases hv : p.2 with
    | int n =>
        refine ⟨n, rfl, ?_⟩
        rw [hv] at this
        simpa using this
    | str s => rw [hv] at this; simp at this
  · intro h p hp
    obtain ⟨n, hn, hpos⟩ := h p hp
    rw [hn]
    simpa using hpos

theorem lookup_mem (stock : Inventory) (k : String) (v : PVal)
    (h : lookup stock k = some v) : (k, v) ∈ stock := by
  induction stock with
  | nil => simp at h
  | cons p rest ih =>
      obtain ⟨k₀, v₀⟩ := p
      simp only [lookup_cons] at h
      by_cases h₀ : k₀ = k
      · subst h₀
        rw [if_pos rfl] at h
        injection h with h
        subst h
        exact List.mem_cons_self _ _
      · rw [if_neg h₀] at h
        exact List.mem_cons_of_mem _ (ih h)

theorem lookup_invariant (stock : Inventory) (k : String) (v : PVal)
    (hinv : invariant stock = true) (h : lookup stock k = some v) :
    ∃ n : ℤ, v = PVal.int n ∧ 0 < n :=
  (invariant_iff stock).mp hinv (k, v) (lookup_mem stock k v h)

theorem mem_lookup (stock : Inventory) (k : String) (v : PVal)
    (hwf : WF stock) (h : (k, v) ∈ stock) : lookup stock k = some v := by
  induction stock with
  | nil => simp at h
  | cons p rest ih =>
      obtain ⟨k₀, v₀⟩ := p
      unfold WF at hwf
      simp only [List.map_cons, List.nodup_cons] at hwf
      rcases List.mem_cons.mp h with h | h
      · injection h with h1 h2
        subst h1; subst h2
        simp
      · have hne : k₀ ≠ k := by
          intro hk
          subst hk
          exact hwf.1 (List.mem_map.mpr ⟨(k₀, v), h, rfl⟩)
        simp only [lookup_cons, if_neg hne]
        exact ih hwf.2 h

theorem mem_setKey (stock : Inventory) (k : String) (v : PVal) (p : String × PVal)
    (h : p ∈ setKey stock k v) : p = (k, v) ∨ p ∈ stock := by
  induction stock with
  | nil =>
      simp only [setKey, List.mem_singleton] at h
      exact Or.inl h
  | cons q rest ih =>
      obtain ⟨k₀, v₀⟩ := q
      simp only [setKey] at h
      by_cases h₀ : k₀ = k
      · rw [if_pos h₀] at h
        subst h₀
        rcases List.mem_cons.mp h with h1 | h1
        · exact Or.inl h1
        · exact Or.inr (List.mem_cons_of_mem _ h1)
      · rw [if_neg h₀] at h
        rcases List.mem_cons.mp h with h1 | h1
        · exact Or.inr (List.mem_cons.mpr (Or.inl h1))
        · rcases ih h1 with h2 | h2
          · exact Or.inl h2
          · exact Or.inr (List.mem_cons_of_mem _ h2)

theorem mem_delKey (stock : Inventory) (k : String) (p : String × PVal)
    (h : p ∈ delKey stock k) : p ∈ stock := by
  induction stock with
  | nil => simp [delKey] at h
  | cons q rest ih =>
      obtain ⟨k₀, v₀⟩ := q
      by_cases h₀ : k₀ = k
      · subst h₀
        simp only [delKey, if_pos rfl] at h
        exact List.mem_cons_of_mem _ h
      · simp only [delKey, if_neg h₀, List.mem_cons] at h
        rcases h with h | h
        · exact List.mem_cons.mpr (Or.inl h)
        · exact List.mem_cons_of_mem _ (ih h)

/-- Updating a key and then deleting it is the same as deleting it outright:
both touch only the first binding of the key. -/
theorem delKey_setKey (stock : Inventory) (k : String) (v : PVal) :
    delKey (setKey stock k v) k = delKey stock k := by
  induction stock with
  | nil => simp [setKey, delKey]
  | cons q rest ih =>
      obtain ⟨k₀, v₀⟩ := q
      by_cases h₀ : k₀ = k
      · subst h₀
        simp [setKey, delKey]
      · simp [setKey, delKey, h₀, ih]

theorem invariant_setKey (stock : Inventory) (k : String) (n : ℤ)
    (hinv : invariant stock = true) (hn : 0 < n) :
    invariant (setKey stock k (PVal.int n)) = true := by
  rw [invariant_iff] at hinv ⊢
  intro p hp
  rcases mem_setKey stock k (PVal.int n) p hp with h | h
  · subst h
    exact ⟨n, rfl, hn⟩
  · exact hinv p h

theorem invariant_delKey (stock : Inventory) (k : String)
    (hinv : invariant stock = true) :
    invariant (delKey stock k) = true := by
  rw [invariant_iff] at hinv ⊢
  intro p hp
  exact hinv p (mem_delKey stock k p hp)

end Inventory

/-- One `logging` call made by the module, with its severity. -/
inductive LogEvent : Type
  | warnInvalidItem (item : PVal)
  | warnInvalidQty (item : PVal) (qty : PVal)
  | infoAdded (message : String)
  | infoRemoved (item : String)
  | warnMissing (item : String)
  | errorRemoveType (item : String) (qty : PVal)
  deriving DecidableEq, Repr

/-- Severity of a `LogEvent`, mirroring `logging.info/warning/error`. -/
def LogEvent.level : LogEvent → String
  | .warnInvalidItem _ => "warning"
  | .warnInvalidQty _ _ => "warning"
  | .infoAdded _ => "info"
  | .infoRemoved _ => "info"
  | .warnMissing _ => "warning"
  | .errorRemoveType _ _ => "error"

/-- `item` passes `isinstance(item, str) and item`: a non-empty string. -/
def validItem : PVal → Bool
  | PVal.str s => !s.isEmpty
  | PVal.int _ => false

/-- `qty` passes `isinstance(qty, int)`. -/
def validQty : PVal → Bool
  | PVal.int _ => true
  | PVal.str _ => false

/--
`add_item(stock_data, item, qty, logs)`.  `now` stands for `datetime.now()`.
Returns the new stock, the caller's mutation log and the emitted logging
events, or the exception if one escapes: the addition
`stock_data.get(item, 0) + qty` raises an uncaught `TypeError` when the stored
value is not an integer.
-/
def add_item (stock : Inventory) (item qty : PVal) (logs : List String)
    (now : String) : Except PyExc (Inventory × List String × List LogEvent) :=
  if ¬ validItem item then
    Except.ok (stock, logs, [LogEvent.warnInvalidItem item])
  else if ¬ validQty qty then
    Except.ok (stock, logs, [LogEvent.warnInvalidQty item qty])
  else
    match item, qty with
    | PVal.str s, PVal.int q =>
        match (Inventory.lookup stock s).getD (PVal.int 0) with
        | PVal.int old =>
            let message := s!"{now}: Added {q} of {s}"
            Except.ok (Inventory.setKey stock s (PVal.int (old + q)),
              logs ++ [message], [LogEvent.infoAdded message])
        | PVal.str _ => Except.error PyExc.typeError
    | _, _ => Except.ok (stock, logs, [])

/--
`remove_item(stock_data, item, qty)`.  The `try` body performs
`stock_data[item] -= qty` followed by the `<= 0` deletion check; `KeyError`
(absent key) and `TypeError` (non-integer stored value) are caught, so the
operation is total.
-/
def remove_item (stock : Inventory) (item qty : PVal) :
    Inventory × List LogEvent :=
  if ¬ validItem item then
    (stock, [LogEvent.warnInvalidItem item])
  else if ¬ validQty qty then
    (stock, [LogEvent.warnInvalidQty item qty])
  else
    match item, qty with
    | PVal.str s, PVal.int q =>
        match Inventory.lookup stock s with
        | none => (stock, [LogEvent.warnMissing s])
        | some (PVal.int old) =>
            let stock2 := Inventory.setKey stock s (PVal.int (old - q))
            if old - q ≤ 0 then
              (Inventory.delKey stock2 s, [LogEvent.infoRemoved s])
            else
              (stock2, [])
        | some (PVal.str _) => (stock, [LogEvent.errorRemoveType s qty])
    | _, _ => (stock, [])

/-- `get_qty(stock_data, item)`: `stock_data.get(item, 0)`.  A non-string
`item` is never a key of the (string-keyed) inventory, so the default is
returned. -/
def get_qty (stock : Inventory) (item : PVal) : PVal :=
  match item with
  | PVal.str s => (Inventory.lookup stock s).getD (PVal.int 0)
  | PVal.int _ => PVal.int 0

/-- `check_low_items(stock_data, threshold)`: the list comprehension
`[item for item, qty in stock_data.items() if qty < threshold]`.  The
comparison `qty < threshold` raises an uncaught `TypeError` on a non-integer
stored value. -/
def check_low_items (stock : Inventory) (threshold : ℤ) :
    Except PyExc (List String) :=
  match stock with
  | [] => Except.ok []
  | (k, PVal.int q) :: rest =>
      if q < threshold then
        (check_low_items rest threshold).map fun l => k :: l
      else
        (check_low_items rest threshold).map fun l => l
  | (_, PVal.str _) :: _ => Except.error PyExc.typeError

theorem validItem_str (s : String) (hs : s ≠ "") :
    validItem (PVal.str s) = true := by
  show (!s.isEmpty) = true
  cases he : s.isEmpty with
  | false => rfl
  | true => exact absurd ((String.isEmpty_iff s).mp he) hs

/-- `addAll stock s qs` performs `add_item` once for each quantity in `qs`,
stopping at the first uncaught exception.  (`logs` and `now` do not influence
the resulting stock, so they are fixed.) -/
def addAll (stock : Inventory) (s : String) (qs : List ℤ) :
    Except PyExc Inventory :=
  match qs with
  | [] => Except.ok stock
  | q :: rest =>
      match add_item stock (PVal.str s) (PVal.int q) [] "" with
      | Except.ok r => addAll r.1 s rest
      | Except.error e => Except.error e

@[simp]
theorem get_qty_str (stock : Inventory) (s : String) :
    get_qty stock (PVal.str s) = (Inventory.lookup stock s).getD (PVal.int 0) :=
  rfl

/-- On a valid item and an integer quantity, `add_item` reduces to the
arithmetic-and-store step. -/
theorem add_item_valid (stock : Inventory) (s : String) (q : ℤ)
    (logs : List String) (now : String) (hs : s ≠ "") :
    add_item stock (PVal.str s) (PVal.int q) logs now =
      match (Inventory.lookup stock s).getD (PVal.int 0) with
      | PVal.int old =>
          Except.ok (Inventory.setKey stock s (PVal.int (old + q)),
            logs ++ [s!"{now}: Added {q} of {s}"],
            [LogEvent.infoAdded s!"{now}: Added {q} of {s}"])
      | PVal.str _ => Except.error PyExc.typeError := by
  unfold add_item
  rw [if_neg (by simp [validItem_str s hs]), if_neg (by simp [validQty])]

/-- On a valid item and an integer quantity, `remove_item` reduces to the
`try` body with its two handlers. -/
theorem remove_item_valid (stock : Inventory) (s : String) (q : ℤ)
    (hs : s ≠ "") :
    remove_item stock (PVal.str s) (PVal.int q) =
      match Inventory.lookup stock s with
      | none => (stock, [LogEvent.warnMissing s])
      | some (PVal.int old) =>
          if old - q ≤ 0 then
            (Inventory.delKey (Inventory.setKey stock s (PVal.int (old - q))) s,
             [LogEvent.infoRemoved s])
          else
            (Inventory.setKey stock s (PVal.int (old - q)), [])
      | some (PVal.str _) => (stock, [LogEvent.errorRemoveType s (PVal.int q)]) := by
  unfold remove_item
  rw [if_neg (by simp [validItem_str s hs]), if_neg (by simp [validQty])]

theorem addAll_get (s : String) (qs : List ℤ) (stock : Inventory) (m : ℤ)
    (hs : s ≠ "") (h : get_qty stock (PVal.str s) = PVal.int m) :
    ∃ stock2, addAll stock s qs = Except.ok stock2 ∧
      get_qty stock2 (PVal.str s) = PVal.int (m + qs.sum) := by
  induction qs generalizing stock m with
  | nil => exact ⟨stock, rfl, by simpa using h⟩
  | cons q rest ih =>
      rw [get_qty_str] at h
      have hnew : get_qty (Inventory.setKey stock s (PVal.int (m + q)))
          (PVal.str s) = PVal.int (m + q) := by
        rw [get_qty_str, Inventory.lookup_setKey_self]
        rfl
      obtain ⟨stock2, h1, h2⟩ :=
        ih (Inventory.setKey stock s (PVal.int (m + q))) (m + q) hnew
      refine ⟨stock2, ?_, ?_⟩
      · rw [addAll, add_item_valid stock s q [] "" hs]
        simp only [h]
        exact h1
      · rw [h2]
        congr 1
        rw [List.sum_cons]
        ring

/-- **C2**: starting from an inventory in which the (non-empty) item is
absent, performing `add_item` for each quantity of a finite integer sequence
and then `get_qty` returns the sum of all quantities added. -/
theorem C2_add_accumulates (stock : Inventory) (s : String) (qs : List ℤ)
    (hs : s ≠ "") (habs : Inventory.lookup stock s = none) :
    ∃ stock2, addAll stock s qs = Except.ok stock2 ∧
      get_qty stock2 (PVal.str s) = PVal.int qs.sum := by
  have h0 : get_qty stock (PVal.str s) = PVal.int 0 := by
    rw [get_qty_str, habs]
    rfl
  obtain ⟨stock2, h1, h2⟩ := addAll_get s qs stock 0 hs h0
  refine ⟨stock2, h1, ?_⟩
  rw [h2]
  congr 1
  ring

theorem C2_witness :
    ∃ stock2, addAll [] "x" [3, -1, 4] = Except.ok stock2 ∧
      get_qty stock2 (PVal.str "x") = PVal.int ([3, -1, 4] : List ℤ).sum :=
  C2_add_accumulates [] "x" [3, -1, 4] (by decide) (by decide)

/-- **C3**: removing an integer quantity from a present item deletes the key
when the reduced quantity is `≤ 0` (so `get_qty` then returns 0 and the key
leaves the key set) and otherwise keeps the key at the reduced quantity. -/
theorem C3_remove_semantics (stock : Inventory) (s : String) (q old : ℤ)
    (hwf : Inventory.WF stock) (hs : s ≠ "")
    (hold : Inventory.lookup stock s = some (PVal.int old)) :
    (old - q ≤ 0 →
      Inventory.lookup (remove_item stock (PVal.str s) (PVal.int q)).1 s = none ∧
      get_qty (remove_item stock (PVal.str s) (PVal.int q)).1 (PVal.str s)
        = PVal.int 0 ∧
      s ∉ (remove_item stock (PVal.str s) (PVal.int q)).1.map Prod.fst) ∧
    (0 < old - q →
      Inventory.lookup (remove_item stock (PVal.str s) (PVal.int q)).1 s
        = some (PVal.int (old - q))) := by
  have hval := remove_item_valid stock s q hs
  simp only [hold] at hval
  by_cases hle : old - q ≤ 0
  · rw [if_pos hle, Inventory.delKey_setKey] at hval
    have h1 : Inventory.lookup
        (remove_item stock (PVal.str s) (PVal.int q)).1 s = none := by
      rw [hval]
      exact Inventory.lookup_delKey_self stock s hwf
    refine ⟨fun _ => ⟨h1, ?_, ?_⟩, fun hpos => absurd hle (by omega)⟩
    · rw [get_qty_str, h1]
      rfl
    · intro hmem
      exact Inventory.lookup_ne_none_of_mem_keys _ s hmem h1
  · rw [if_neg hle] at hval
    refine ⟨fun hc => absurd hc hle, fun _ => ?_⟩
    rw [hval]
    exact Inventory.lookup_setKey_self stock s _

theorem C3_witness :
    Inventory.lookup
      (remove_item [("x", PVal.int 5)] (PVal.str "x") (PVal.int 5)).1 "x"
        = none ∧
    get_qty (remove_item [("x", PVal.int 5)] (PVal.str "x") (PVal.int 5)).1
        (PVal.str "x") = PVal.int 0 ∧
    "x" ∉ (remove_item [("x", PVal.int 5)] (PVal.str "x")
        (PVal.int 5)).1.map Prod.fst ∧
    Inventory.lookup
      (remove_item [("x", PVal.int 7)] (PVal.str "x") (PVal.int 3)).1 "x"
        = some (PVal.int 4) := by
  have h1 := C3_remove_semantics [("x", PVal.int 5)] "x" 5 5
    (by simp [Inventory.WF]) (by decide) (by decide)
  have h2 := C3_remove_semantics [("x", PVal.int 7)] "x" 3 7
    (by simp [Inventory.WF]) (by decide) (by decide)
  obtain ⟨ha, hb, hc⟩ := h1.1 (by decide)
  exact ⟨ha, hb, hc, h2.2 (by decide)⟩

/-- **C4**: an invalid item (not a non-empty string) or an invalid quantity
(not an integer) makes both `add_item` and `remove_item` warn-level no-ops:
the stock and the caller's log are untouched and the same single warning
event is emitted by both operations. -/
theorem C4_invalid_noop (stock : Inventory) (item qty : PVal)
    (logs : List String) (now : String)
    (h : validItem item = false ∨ validQty qty = false) :
    ∃ w : LogEvent, w.level = "warning" ∧
      add_item stock item qty logs now = Except.ok (stock, logs, [w]) ∧
      remove_item stock item qty = (stock, [w]) := by
  by_cases hi : validItem item = true
  · have hq : validQty qty = false := by
      rcases h with h | h
      · rw [hi] at h
        cases h
      · exact h
    refine ⟨LogEvent.warnInvalidQty item qty, rfl, ?_, ?_⟩
    · unfold add_item
      rw [if_neg (by simp [hi]), if_pos (by simp [hq])]
    · unfold remove_item
      rw [if_neg (by simp [hi]), if_pos (by simp [hq])]
  · have hi' : validItem item = false := by
      cases hvi : validItem item
      · rfl
      · exact absurd hvi hi
    refine ⟨LogEvent.warnInvalidItem item, rfl, ?_, ?_⟩
    · unfold add_item
      rw [if_pos (by simp [hi'])]
    · unfold remove_item
      rw [if_pos (by simp [hi'])]

theorem C4_witness :
    ∃ w : LogEvent, w.level = "warning" ∧
      add_item [("apple", PVal.int 10)] (PVal.int 123) (PVal.str "ten") [] "t"
        = Except.ok ([("apple", PVal.int 10)], [], [w]) ∧
      remove_item [("apple", PVal.int 10)] (PVal.int 123) (PVal.str "ten")
        = ([("apple", PVal.int 10)], [w]) :=
  C4_invalid_noop [("apple", PVal.int 10)] (PVal.int 123) (PVal.str "ten")
    [] "t" (Or.inl (by decide))

/-- **C5**: `remove_item` on a valid item absent from the inventory signals a
warning, raises nothing, and leaves the mapping exactly as it was. -/
theorem C5_remove_absent (stock : Inventory) (s : String) (q : ℤ)
    (hs : s ≠ "") (habs : Inventory.lookup stock s = none) :
    remove_item stock (PVal.str s) (PVal.int q)
      = (stock, [LogEvent.warnMissing s]) ∧
    (LogEvent.warnMissing s).level = "warning" := by
  refine ⟨?_, rfl⟩
  have hval := remove_item_valid stock s q hs
  simp only [habs] at hval
  exact hval

theorem C5_witness :
    remove_item [("apple", PVal.int 10)] (PVal.str "orange") (PVal.int 1)
      = ([("apple", PVal.int 10)], [LogEvent.warnMissing "orange"]) ∧
    (LogEvent.warnMissing "orange").level = "warning" :=
  C5_remove_absent [("apple", PVal.int 10)] "orange" 1 (by decide) (by decide)

/-- **C7**: on an integer-valued inventory, `check_low_items` returns exactly
the keys whose quantity is strictly below the threshold, in the mapping's
iteration order (it is a pure query); in particular, with threshold 5 on
`{"apple": 10, "banana": 3}` it returns exactly `["banana"]`. -/
theorem C7_check_low_items (stock : Inventory) (threshold : ℤ)
    (hints : ∀ p ∈ stock, ∃ n : ℤ, p.2 = PVal.int n) :
    check_low_items stock threshold =
      Except.ok ((stock.filter fun p =>
        match p.2 with
        | PVal.int q => decide (q < threshold)
        | PVal.str _ => false).map Prod.fst) ∧
    check_low_items [("apple", PVal.int 10), ("banana", PVal.int 3)] 5 =
      Except.ok ["banana"] := by
  refine ⟨?_, by decide⟩
  induction stock with
  | nil => rfl
  | cons p rest ih =>
      obtain ⟨k, v⟩ := p
      obtain ⟨n, hn⟩ := hints (k, v) (List.mem_cons_self _ _)
      simp only at hn
      subst hn
      have ih' := ih fun p hp => hints p (List.mem_cons_of_mem _ hp)
      by_cases hlt : n < threshold
      · simp [check_low_items, hlt, ih', List.filter_cons, Except.map]
      · simp [check_low_items, hlt, ih', List.filter_cons, Except.map]

theorem C7_witness :
    check_low_items [("apple", PVal.int 10), ("banana", PVal.int 3)] 5 =
      Except.ok ["banana"] :=
  (C7_check_low_items [("apple", PVal.int 10), ("banana", PVal.int 3)] 5
    (by
      intro p hp
      rcases List.mem_cons.mp hp with h | hp
      · subst h
        exact ⟨10, rfl⟩
      · rcases List.mem_cons.mp hp with h | hp
        · subst h
          exact ⟨3, rfl⟩
        · simp at hp)).2

/-- **C8**: `get_qty` returns the stored quantity of a present item and 0 for
an absent one; it is a pure, total query in the embedding. -/
theorem C8_get_qty_spec (stock : Inventory) (s : String) (v : PVal)
    (hwf : Inventory.WF stock) :
    ((s, v) ∈ stock → get_qty stock (PVal.str s) = v) ∧
    (s ∉ stock.map Prod.fst → get_qty stock (PVal.str s) = PVal.int 0) := by
  constructor
  · intro hmem
    rw [get_qty_str, Inventory.mem_lookup stock s v hwf hmem]
    rfl
  · intro habs
    rw [get_qty_str, Inventory.lookup_eq_none stock s habs]
    rfl

theorem C8_witness :
    get_qty [("a", PVal.int 2), ("b", PVal.int 7)] (PVal.str "b")
      = PVal.int 7 ∧
    get_qty [("a", PVal.int 2), ("b", PVal.int 7)] (PVal.str "zzz")
      = PVal.int 0 :=
  ⟨(C8_get_qty_spec [("a", PVal.int 2), ("b", PVal.int 7)] "b" (PVal.int 7)
      (by simp [Inventory.WF])).1 (by decide),
   (C8_get_qty_spec [("a", PVal.int 2), ("b", PVal.int 7)] "zzz" (PVal.int 7)
      (by simp [Inventory.WF])).2 (by decide)⟩

/-- **C10**: `add_item` on a valid item changes at most that item's binding
(every other key keeps its presence and value), and `remove_item` likewise
touches only the named item and never adds a key. -/
theorem C10_frame (stock : Inventory) (s other : String) (q : ℤ)
    (logs : List String) (now : String)
    (r : Inventory × List String × List LogEvent)
    (hs : s ≠ "") (hother : other ≠ s) :
    (add_item stock (PVal.str s) (PVal.int q) logs now = Except.ok r →
      Inventory.lookup r.1 other = Inventory.lookup stock other) ∧
    Inventory.lookup (remove_item stock (PVal.str s) (PVal.int q)).1 other
      = Inventory.lookup stock other ∧
    ∀ x ∈ (remove_item stock (PVal.str s) (PVal.int q)).1.map Prod.fst,
      x ∈ stock.map Prod.fst := by
  have hsne : s ≠ other := Ne.symm hother
  refine ⟨?_, ?_, ?_⟩
  · intro h
    have hval := add_item_valid stock s q logs now hs
    cases hv : (Inventory.lookup stock s).getD (PVal.int 0) with
    | int old =>
        simp only [hv] at hval
        rw [hval] at h
        injection h with h
        rw [← h]
        exact Inventory.lookup_setKey_ne stock s other _ hsne
    | str t =>
        simp only [hv] at hval
        rw [hval] at h
        cases h
  · have hval := remove_item_valid stock s q hs
    cases hl : Inventory.lookup stock s with
    | none =>
        simp only [hl] at hval
        rw [hval]
    | some v =>
        cases v with
        | int old =>
            simp only [hl] at hval
            by_cases hle : old - q ≤ 0
            · rw [if_pos hle, Inventory.delKey_setKey] at hval
              rw [hval]
              exact Inventory.lookup_delKey_ne stock s other hsne
            · rw [if_neg hle] at hval
              rw [hval]
              exact Inventory.lookup_setKey_ne stock s other _ hsne
        | str t =>
            simp only [hl] at hval
            rw [hval]
  · have hval := remove_item_valid stock s q hs
    cases hl : Inventory.lookup stock s with
    | none =>
        simp only [hl] at hval
        rw [hval]
        exact fun x hx => hx
    | some v =>
        cases v with
        | int old =>
            simp only [hl] at hval
            by_cases hle : old - q ≤ 0
            · rw [if_pos hle, Inventory.delKey_setKey] at hval
              rw [hval]
              exact Inventory.keys_delKey_subset stock s
            · rw [if_neg hle] at hval
              rw [hval]
              rw [Inventory.keys_setKey]
              rw [if_neg (by simp [hl])]
              exact fun x hx => hx
        | str t =>
            simp only [hl] at hval
            rw [hval]
            exact fun x hx => hx

theorem C10_witness :
    Inventory.lookup
      (remove_item [("apple", PVal.int 10), ("x", PVal.int 5)]
        (PVal.str "x") (PVal.int 5)).1 "apple" =
      Inventory.lookup [("apple", PVal.int 10), ("x", PVal.int 5)] "apple" := by
  have h := C10_frame [("apple", PVal.int 10), ("x", PVal.int 5)] "x" "apple"
    5 [] "t"
    ([("apple", PVal.int 10), ("x", PVal.int 10)], [], [])
    (by decide) (by decide)
  exact h.2.1

/-- **C1** (as stated) fails: from the empty inventory, which satisfies the
invariant, a single `add_item` of quantity 0 leaves the key `"x"` bound to 0,
violating it. -/
theorem C1_counterexample :
    Inventory.invariant [] = true ∧
    add_item [] (PVal.str "x") (PVal.int 0) [] "t" =
      Except.ok ([("x", PVal.int 0)], ["t: Added 0 of x"],
        [LogEvent.infoAdded "t: Added 0 of x"]) ∧
    Inventory.invariant [("x", PVal.int 0)] = false := by
  decide

/-- **C1** (amended): every inventory satisfying the invariant still
satisfies it after `remove_item` (with any arguments), and after a successful
`add_item` provided the item's prior quantity plus the added quantity is
strictly positive. -/
theorem C1_invariant_preserved (stock : Inventory) (item qty : PVal)
    (s : String) (q m : ℤ) (logs : List String) (now : String)
    (r : Inventory × List String × List LogEvent)
    (hinv : Inventory.invariant stock = true) :
    Inventory.invariant (remove_item stock item qty).1 = true ∧
    (add_item stock (PVal.str s) (PVal.int q) logs now = Except.ok r →
      get_qty stock (PVal.str s) = PVal.int m → 0 < m + q →
      Inventory.invariant r.1 = true) := by
  constructor
  · by_cases hi : validItem item = true
    · by_cases hq : validQty qty = true
      · cases item with
        | int n => simp [validItem] at hi
        | str s' =>
            cases qty with
            | str t => simp [validQty] at hq
            | int q' =>
                have hs' : s' ≠ "" := by
                  intro hc
                  subst hc
                  exact absurd hi (by decide)
                have hval := remove_item_valid stock s' q' hs'
                cases hl : Inventory.lookup stock s' with
                | none =>
                    simp only [hl] at hval
                    rw [hval]
                    exact hinv
                | some v =>
                    cases v with
                    | int old =>
                        simp only [hl] at hval
                        by_cases hle : old - q' ≤ 0
                        · rw [if_pos hle, Inventory.delKey_setKey] at hval
                          rw [hval]
                          exact Inventory.invariant_delKey stock s' hinv
                        · rw [if_neg hle] at hval
                          rw [hval]
                          exact Inventory.invariant_setKey stock s' _ hinv
                            (by omega)
                    | str t =>
                        simp only [hl] at hval
                        rw [hval]
                        exact hinv
      · unfold remove_item
        rw [if_neg (by simp [hi]), if_pos (by simpa using hq)]
        exact hinv
    · unfold remove_item
      rw [if_pos (by simpa using hi)]
      exact hinv
  · intro h hm hp
    by_cases hs' : s = ""
    · subst hs'
      unfold add_item at h
      rw [if_pos (by decide)] at h
      injection h with h
      rw [← h]
      exact hinv
    · have hval := add_item_valid stock s q logs now hs'
      rw [get_qty_str] at hm
      simp only [hm] at hval
      rw [hval] at h
      injection h with h
      rw [← h]
      exact Inventory.invariant_setKey stock s _ hinv hp

theorem C1_witness :
    Inventory.invariant
      (remove_item [("a", PVal.int 2)] (PVal.str "a") (PVal.int 1)).1
        = true ∧
    Inventory.invariant [("a", PVal.int 3)] = true := by
  have h := C1_invariant_preserved [("a", PVal.int 2)] (PVal.str "a")
    (PVal.int 1) "a" 1 2 [] "t"
    ([("a", PVal.int 3)], ["t: Added 1 of a"],
      [LogEvent.infoAdded "t: Added 1 of a"]) (by decide)
  exact ⟨h.1, h.2 (by decide) (by decide) (by decide)⟩

/-- **C6** (as stated) fails: on the inventory `{"x": "abc"}` (reachable by
loading a JSON file `{"x": "abc"}`), `add_item("x", 5)` performs
`stock_data.get("x", 0) + 5` on a string, and the resulting `TypeError` is
not caught, so it surfaces to the caller. -/
theorem C6_counterexample :
    add_item [("x", PVal.str "abc")] (PVal.str "x") (PVal.int 5) [] "t" =
      Except.error PyExc.typeError := by
  decide

/-- **C6** (amended): a type mismatch during `remove_item`'s arithmetic is
absorbed as an error-level notice and leaves the mapping unchanged, while
`add_item` on a valid item surfaces a `TypeError` exactly when the stored
value for that item is not an integer. -/
theorem C6_exception_policy (stock : Inventory) (s t : String) (q : ℤ)
    (logs : List String) (now : String) (hs : s ≠ "") :
    (Inventory.lookup stock s = some (PVal.str t) →
      remove_item stock (PVal.str s) (PVal.int q) =
        (stock, [LogEvent.errorRemoveType s (PVal.int q)]) ∧
      (LogEvent.errorRemoveType s (PVal.int q)).level = "error") ∧
    (add_item stock (PVal.str s) (PVal.int q) logs now
        = Except.error PyExc.typeError ↔
      ∃ u, Inventory.lookup stock s = some (PVal.str u)) := by
  constructor
  · intro h
    have hval := remove_item_valid stock s q hs
    simp only [h] at hval
    exact ⟨hval, rfl⟩
  · have hval := add_item_valid stock s q logs now hs
    cases hl : Inventory.lookup stock s with
    | none =>
        simp only [hl] at hval
        rw [hval]
        constructor
        · intro h
          cases h
        · rintro ⟨u, hu⟩
          cases hu
    | some v =>
        cases v with
        | int old =>
            simp only [hl] at hval
            rw [hval]
            constructor
            · intro h
              cases h
            · rintro ⟨u, hu⟩
              cases hu
        | str u =>
            simp only [hl] at hval
            rw [hval]
            exact ⟨fun _ => ⟨u, rfl⟩, fun _ => rfl⟩

/-! ## Persistence: `json.dump` / `json.load` on the inventory fragment

`save_data` writes `json.dump(stock_data, f, indent=4)` (CPython's encoder
with its default `ensure_ascii=True`): `"{}"` for the empty mapping, else
`{`, newline, one 4-space-indented `"key": value` line per entry joined by
`,`+newline, newline, `}`.  Strings escape `"`, `\`, the short control
escapes, every other character outside printable ASCII as `\uXXXX`
(astral characters as a surrogate pair).  `load_data` reads the file back
with `json.load`; the decoder below models the JSON object-of-scalars
fragment, building the dictionary pair by pair (last binding of a repeated
key wins, as in a Python dict).  Lean's `Char` cannot represent lone
surrogates, so escape sequences that would decode to one are rejected
rather than kept; `json.dump` never emits them unpaired. -/

/-- Lowercase hex digit (also used for decimal digits when `n < 10`). -/
def toHexDigit (n : Nat) : Char :=
  if n < 10 then Char.ofNat (48 + n) else Char.ofNat (87 + n)

/-- Four-digit lowercase hex, most significant first, as in `\uXXXX`. -/
def hex4 (n : Nat) : List Char :=
  [toHexDigit (n / 4096 % 16), toHexDigit (n / 256 % 16),
   toHexDigit (n / 16 % 16), toHexDigit (n % 16)]

/-- How CPython's `ensure_ascii` JSON encoder writes one character. -/
def encodeChar (c : Char) : List Char :=
  if c = '"' then ['\\', '"']
  else if c = '\\' then ['\\', '\\']
  else if c = '\n' then ['\\', 'n']
  else if c = '\r' then ['\\', 'r']
  else if c = '\t' then ['\\', 't']
  else if c.toNat = 8 then ['\\', 'b']
  else if c.toNat = 12 then ['\\', 'f']
  else if 0x20 ≤ c.toNat ∧ c.toNat ≤ 0x7e then [c]
  else if c.toNat < 0x10000 then '\\' :: 'u' :: hex4 c.toNat
  else
    ('\\' :: 'u' :: hex4 (0xD800 + (c.toNat - 0x10000) / 0x400)) ++
    ('\\' :: 'u' :: hex4 (0xDC00 + (c.toNat - 0x10000) % 0x400))

/-- A JSON string literal: quote, escaped characters, quote. -/
def encodeJStr (s : String) : List Char :=
  '"' :: (s.data.flatMap encodeChar ++ ['"'])

/-- Decimal digits of a natural number, most significant first (`str(n)`). -/
def printNatDigits (n : Nat) : List Char :=
  if h : n < 10 then [toHexDigit n]
  else printNatDigits (n / 10) ++ [toHexDigit (n % 10)]
termination_by n
decreasing_by exact Nat.div_lt_self (by omega) (by omega)

/-- `str(z)` for a Python int. -/
def printInt (z : ℤ) : List Char :=
  if z < 0 then '-' :: printNatDigits z.natAbs else printNatDigits z.natAbs

/-- How `json.dump` writes one scalar value. -/
def printVal : PVal → List Char
  | PVal.int z => printInt z
  | PVal.str s => encodeJStr s

/-- The `indent=4`-separated `"key": value` lines of a non-empty object. -/
def dumpEntries : Inventory → List Char
  | [] => []
  | [(k, v)] => ' ' :: ' ' :: ' ' :: ' ' :: (encodeJStr k ++ ':' :: ' ' :: printVal v)
  | (k, v) :: rest =>
      ' ' :: ' ' :: ' ' :: ' ' ::
        (encodeJStr k ++ ':' :: ' ' :: printVal v ++ ',' :: '\n' :: dumpEntries rest)

/-- `json.dumps(stock_data, indent=4)`. -/
def dumps (stock : Inventory) : List Char :=
  match stock with
  | [] => ['{', '}']
  | _ => '{' :: '\n' :: (dumpEntries stock ++ ['\n', '}'])

/-- JSON whitespace. -/
def isWs (c : Char) : Bool := c = ' ' ∨ c = '\n' ∨ c = '\t' ∨ c = '\r'

/-- Drop leading JSON whitespace. -/
def skipWs : List Char → List Char
  | [] => []
  | c :: rest => if isWs c then skipWs rest else c :: rest

/-- Value of one hex digit, as the JSON decoder reads `\uXXXX`. -/
def fromHexDigit (c : Char) : Option Nat :=
  if '0' ≤ c ∧ c ≤ '9' then some (c.toNat - 48)
  else if 'a' ≤ c ∧ c ≤ 'f' then some (c.toNat - 87)
  else if 'A' ≤ c ∧ c ≤ 'F' then some (c.toNat - 55)
  else none

/-- The two-character escapes accepted by the JSON decoder. -/
def escChar (e : Char) : Option Char :=
  if e = '"' then some '"'
  else if e = '\\' then some '\\'
  else if e = '/' then some '/'
  else if e = 'n' then some '\n'
  else if e = 't' then some '\t'
  else if e = 'r' then some '\r'
  else if e = 'b' then some (Char.ofNat 8)
  else if e = 'f' then some (Char.ofNat 12)
  else none

/-- Scan a JSON string body up to the closing quote, producing UTF-16-style
code units (`\uXXXX` escapes may contribute surrogate halves). -/
def parseUnits : List Char → Option (List Nat × List Char)
  | [] => none
  | c :: rest =>
      if c = '"' then some ([], rest)
      else if c = '\\' then
        match rest with
        | [] => none
        | e :: rest2 =>
            if e = 'u' then
              match rest2 with
              | a :: b :: c2 :: d :: rest3 =>
                  match fromHexDigit a, fromHexDigit b,
                      fromHexDigit c2, fromHexDigit d with
                  | some ha, some hb, some hc, some hd =>
                      (parseUnits rest3).map fun p =>
                        ((((ha * 16 + hb) * 16 + hc) * 16 + hd) :: p.1, p.2)
                  | _, _, _, _ => none
              | _ => none
            else
              match escChar e with
              | some ec => (parseUnits rest2).map fun p => (ec.toNat :: p.1, p.2)
              | none => none
      else (parseUnits rest).map fun p => (c.toNat :: p.1, p.2)
termination_by l => l.length
decreasing_by all_goals simp [List.length_cons] <;> omega

/-- Recombine code units into characters, pairing surrogates as the JSON
decoder does.  A lone surrogate is rejected (unrepresentable in `Char`). -/
def unitsToChars : List Nat → Option (List Char)
  | [] => some []
  | u :: rest =>
      if 0xD800 ≤ u ∧ u < 0xDC00 then
        match rest with
        | u2 :: rest2 =>
            if 0xDC00 ≤ u2 ∧ u2 < 0xE000 then
              (unitsToChars rest2).map fun cs =>
                Char.ofNat (0x10000 + (u - 0xD800) * 0x400 + (u2 - 0xDC00)) :: cs
            else none
        | [] => none
      else if 0xDC00 ≤ u ∧ u < 0xE000 then none
      else if u < 0x110000 then
        (unitsToChars rest).map fun cs => Char.ofNat u :: cs
      else none

/-- Parse a JSON string literal. -/
def parseJStr (l : List Char) : Option (String × List Char) :=
  match l with
  | c :: rest =>
      if c = '"' then
        match parseUnits rest with
        | some (us, rest2) =>
            match unitsToChars us with
            | some cs => some (String.mk cs, rest2)
            | none => none
        | none => none
      else none
  | [] => none

/-- One decimal digit? -/
def isDigitChar (c : Char) : Bool := '0' ≤ c ∧ c ≤ '9'

/-- Greedily read decimal digits, returning their values and the rest. -/
def takeDigits : List Char → List Nat × List Char
  | [] => ([], [])
  | c :: rest =>
      if isDigitChar c then
        ((c.toNat - 48) :: (takeDigits rest).1, (takeDigits rest).2)
      else ([], c :: rest)

/-- Value of a most-significant-first digit list. -/
def digitsToNat (ds : List Nat) : Nat :=
  ds.foldl (fun acc d => acc * 10 + d) 0

/-- Parse a JSON integer (sign and digits). -/
def parseJInt (l : List Char) : Option (ℤ × List Char) :=
  if l.head? = some '-' then
    match takeDigits l.tail with
    | ([], _) => none
    | (ds, rest2) => some (-(digitsToNat ds : ℤ), rest2)
  else
    match takeDigits l with
    | ([], _) => none
    | (ds, rest2) => some ((digitsToNat ds : ℤ), rest2)

/-- Parse a scalar JSON value of the inventory fragment. -/
def parseJVal (l : List Char) : Option (PVal × List Char) :=
  if l.head? = some '"' then
    match parseJStr l with
    | some (s, rest) => some (PVal.str s, rest)
    | none => none
  else
    match parseJInt l with
    | some (z, rest) => some (PVal.int z, rest)
    | none => none

theorem skipWs_length_le (l : List Char) : (skipWs l).length ≤ l.length := by
  induction l with
  | nil => simp [skipWs]
  | cons c rest ih =>
      simp only [skipWs]
      by_cases h : isWs c = true
      · rw [if_pos h]
        simp only [List.length_cons]
        omega
      · rw [if_neg h]

theorem parseUnits_length {l : List Char} {us : List Nat} {r : List Char}
    (h : parseUnits l = some (us, r)) : r.length < l.length := by
  induction l using parseUnits.induct generalizing us r with
  | case1 => simp [parseUnits] at h
  | case2 rest2 =>
      rw [parseUnits.eq_def] at h
      simp at h
      obtain ⟨h1, h2⟩ := h
      subst h2
      simp
  | case3 hne =>
      rw [parseUnits.eq_def] at h
      simp at h
  | case4 a b c2 d rest3 ha hb hc hd hd_eq hc_eq hb_eq ha_eq hne ih =>
      rw [parseUnits.eq_def] at h
      rcases hp : parseUnits rest3 with _ | ⟨p1, p2⟩
      · simp [ha_eq, hb_eq, hc_eq, hd_eq, hp] at h
      · simp [ha_eq, hb_eq, hc_eq, hd_eq, hp] at h
        obtain ⟨h1, h2⟩ := h
        subst h2
        have := ih hp
        simp only [List.length_cons]
        omega
  | case5 a b c2 d rest3 hfail hne =>
      rw [parseUnits.eq_def] at h
      rcases hda : fromHexDigit a with _ | ha <;>
        rcases hdb : fromHexDigit b with _ | hb <;>
        rcases hdc : fromHexDigit c2 with _ | hc <;>
        rcases hdd : fromHexDigit d with _ | hd <;>
        simp [hda, hdb, hdc, hdd] at h
      exact (hfail ha hb hc hd hda hdb hdc hdd).elim
  | case6 rest2 hshape hne =>
      rcases rest2 with _ | ⟨a, _ | ⟨b, _ | ⟨c2, _ | ⟨d, rest3⟩⟩⟩⟩
      · rw [parseUnits.eq_def] at h
        simp at h
      · rw [parseUnits.eq_def] at h
        simp at h
      · rw [parseUnits.eq_def] at h
        simp at h
      · rw [parseUnits.eq_def] at h
        simp at h
      · exact (hshape a b c2 d rest3 rfl).elim
  | case7 e rest2 hne ec hesc hq ih =>
      rw [parseUnits.eq_def] at h
      rcases hp : parseUnits rest2 with _ | ⟨p1, p2⟩
      · simp [hne, hesc, hp] at h
      · simp [hne, hesc, hp] at h
        obtain ⟨h1, h2⟩ := h
        subst h2
        have := ih hp
        simp only [List.length_cons]
        omega
  | case8 e rest2 hne hesc hq =>
      rw [parseUnits.eq_def] at h
      simp [hne, hesc] at h
  | case9 e rest2 hq hb ih =>
      rw [parseUnits.eq_def] at h
      rcases hp : parseUnits rest2 with _ | ⟨p1, p2⟩
      · simp [hq, hb, hp] at h
      · simp [hq, hb, hp] at h
        obtain ⟨h1, h2⟩ := h
        subst h2
        have := ih hp
        simp only [List.length_cons]
        omega

theorem takeDigits_length (l : List Char) : (takeDigits l).2.length ≤ l.length := by
  induction l with
  | nil => simp [takeDigits]
  | cons c rest ih =>
      simp only [takeDigits]
      by_cases h : isDigitChar c = true
      · rw [if_pos h]
        exact Nat.le_succ_of_le ih
      · rw [if_neg h]

theorem parseJStr_length {l : List Char} {s : String} {r : List Char}
    (h : parseJStr l = some (s, r)) : r.length < l.length := by
  cases l with
  | nil => simp [parseJStr] at h
  | cons c rest =>
      simp only [parseJStr] at h
      by_cases hc : c = '"'
      · rw [if_pos hc] at h
        rcases hp : parseUnits rest with _ | ⟨us, rest2⟩
        · simp only [hp] at h
          cases h
        · simp only [hp] at h
          rcases hu : unitsToChars us with _ | cs
          · simp only [hu] at h
            cases h
          · simp only [hu] at h
            injection h with h
            injection h with h1 h2
            subst h2
            have := parseUnits_length hp
            simp only [List.length_cons]
            omega
      · rw [if_neg hc] at h
        cases h

theorem parseJInt_length {l : List Char} {z : ℤ} {r : List Char}
    (h : parseJInt l = some (z, r)) : r.length ≤ l.length := by
  have htail : l.tail.length ≤ l.length := by
    cases l <;> simp
  unfold parseJInt at h
  by_cases hc : l.head? = some '-'
  · rw [if_pos hc] at h
    have ht := takeDigits_length l.tail
    rcases hd : takeDigits l.tail with ⟨ds, rest2⟩
    rw [hd] at ht
    simp only [hd] at h
    cases ds with
    | nil => cases h
    | cons d0 ds' =>
        injection h with h
        injection h with h1 h2
        subst h2
        simp only at ht
        omega
  · rw [if_neg hc] at h
    have ht := takeDigits_length l
    rcases hd : takeDigits l with ⟨ds, rest2⟩
    rw [hd] at ht
    simp only [hd] at h
    cases ds with
    | nil => cases h
    | cons d0 ds' =>
        injection h with h
        injection h with h1 h2
        subst h2
        simp only at ht
        omega

theorem parseJVal_length {l : List Char} {v : PVal} {r : List Char}
    (h : parseJVal l = some (v, r)) : r.length ≤ l.length := by
  unfold parseJVal at h
  by_cases hc : l.head? = some '"'
  · rw [if_pos hc] at h
    rcases hp : parseJStr l with _ | ⟨s, rest⟩
    · simp only [hp] at h
      cases h
    · simp only [hp] at h
      injection h with h
      injection h with h1 h2
      subst h2
      exact le_of_lt (parseJStr_length hp)
  · rw [if_neg hc] at h
    rcases hp : parseJInt l with _ | ⟨z, rest⟩
    · simp only [hp] at h
      cases h
    · simp only [hp] at h
      injection h with h
      injection h with h1 h2
      subst h2
      exact parseJInt_length hp
def parsePairs (l : List Char) : Option (List (String × PVal) × List Char) :=
  match hstr : parseJStr (skipWs l) with
  | none => none
  | some (k, rest) =>
      match hcolon : skipWs rest with
      | c :: rest2 =>
          if c = ':' then
            match hval : parseJVal (skipWs rest2) with
            | none => none
            | some (v, rest3) =>
                match hsep : skipWs rest3 with
                | c2 :: rest4 =>
                    if c2 = ',' then
                      (parsePairs rest4).map fun p => ((k, v) :: p.1, p.2)
                    else if c2 = '}' then some ([(k, v)], rest4)
                    else none
                | [] => none
          else none
      | [] => none
termination_by l.length
decreasing_by
  have h1 := skipWs_length_le l
  have h2 := parseJStr_length hstr
  have h3 := skipWs_length_le rest
  have h4 := parseJVal_length hval
  have h5 := skipWs_length_le rest2
  have h6 := skipWs_length_le rest3
  rw [hcolon] at h3
  rw [hsep] at h6
  simp only [List.length_cons] at h3 h6
  omega

/-- UTF-16 code units of one character, as `ensure_ascii` escapes would
produce them (identity below `0x10000`, else the surrogate pair). -/
def charUnits (c : Char) : List Nat :=
  if c.toNat < 0x10000 then [c.toNat]
  else [0xD800 + (c.toNat - 0x10000) / 0x400,
        0xDC00 + (c.toNat - 0x10000) % 0x400]

theorem char_toNat_lt (c : Char) : c.toNat < 0x110000 := by
  have h := c.valid
  unfold UInt32.isValidChar at h
  unfold Nat.isValidChar at h
  have he : c.toNat = c.val.toNat := rfl
  rcases h with h | h <;> omega

theorem char_not_surrogate (c : Char) :
    ¬(0xD800 ≤ c.toNat ∧ c.toNat < 0xE000) := by
  have h := c.valid
  unfold UInt32.isValidChar at h
  unfold Nat.isValidChar at h
  have he : c.toNat = c.val.toNat := rfl
  rcases h with h | h <;> omega

theorem parseUnits_quote (t : List Char) :
    parseUnits ('"' :: t) = some ([], t) := by
  rw [parseUnits.eq_def]
  simp

theorem parseUnits_esc (e ec : Char) (t : List Char) (hne : e ≠ 'u')
    (hesc : escChar e = some ec) :
    parseUnits ('\\' :: e :: t) =
      (parseUnits t).map fun p => (ec.toNat :: p.1, p.2) := by
  rw [parseUnits.eq_def]
  simp [hne, hesc]

theorem parseUnits_u (a b c2 d : Char) (ha hb hc hd : Nat) (t : List Char)
    (h1 : fromHexDigit a = some ha) (h2 : fromHexDigit b = some hb)
    (h3 : fromHexDigit c2 = some hc) (h4 : fromHexDigit d = some hd) :
    parseUnits ('\\' :: 'u' :: a :: b :: c2 :: d :: t) =
      (parseUnits t).map fun p =>
        ((((ha * 16 + hb) * 16 + hc) * 16 + hd) :: p.1, p.2) := by
  rw [parseUnits.eq_def]
  simp [h1, h2, h3, h4]

theorem parseUnits_plain (c : Char) (t : List Char) (h1 : c ≠ '"')
    (h2 : c ≠ '\\') :
    parseUnits (c :: t) = (parseUnits t).map fun p => (c.toNat :: p.1, p.2) := by
  rw [parseUnits.eq_def]
  simp [h1, h2]

theorem fromHexDigit_toHexDigit (n : Nat) (h : n < 16) :
    fromHexDigit (toHexDigit n) = some n := by
  interval_cases n <;> decide

theorem parseUnits_hex4 (n : Nat) (hn : n < 0x10000) (t : List Char) :
    parseUnits ('\\' :: 'u' :: (hex4 n ++ t)) =
      (parseUnits t).map fun p => (n :: p.1, p.2) := by
  have e1 := fromHexDigit_toHexDigit (n / 4096 % 16) (by omega)
  have e2 := fromHexDigit_toHexDigit (n / 256 % 16) (by omega)
  have e3 := fromHexDigit_toHexDigit (n / 16 % 16) (by omega)
  have e4 := fromHexDigit_toHexDigit (n % 16) (by omega)
  have hsh : hex4 n ++ t =
      toHexDigit (n / 4096 % 16) :: toHexDigit (n / 256 % 16) ::
        toHexDigit (n / 16 % 16) :: toHexDigit (n % 16) :: t := rfl
  rw [hsh, parseUnits_u _ _ _ _ _ _ _ _ t e1 e2 e3 e4]
  have harith :
      ((n / 4096 % 16 * 16 + n / 256 % 16) * 16 + n / 16 % 16) * 16 + n % 16
        = n := by omega
  rw [harith]

theorem parseUnits_encodeChar (c : Char) (t : List Char) :
    parseUnits (encodeChar c ++ t) =
      (parseUnits t).map fun p => (charUnits c ++ p.1, p.2) := by
  have hlt := char_toNat_lt c
  unfold encodeChar
  by_cases h1 : c = '"'
  · rw [if_pos h1]
    subst h1
    simp only [List.cons_append, List.nil_append]
    rw [parseUnits_esc '"' '"' t (by decide) (by decide)]
    rw [show charUnits '"' = ['"'.toNat] from by
      unfold charUnits
      rw [if_pos (by decide)]]
    rfl
  rw [if_neg h1]
  by_cases h2 : c = '\\'
  · rw [if_pos h2]
    subst h2
    simp only [List.cons_append, List.nil_append]
    rw [parseUnits_esc '\\' '\\' t (by decide) (by decide)]
    rw [show charUnits '\\' = ['\\'.toNat] from by
      unfold charUnits
      rw [if_pos (by decide)]]
    rfl
  rw [if_neg h2]
  by_cases h3 : c = '\n'
  · rw [if_pos h3]
    subst h3
    simp only [List.cons_append, List.nil_append]
    rw [parseUnits_esc 'n' '\n' t (by decide) (by decide)]
    rw [show charUnits '\n' = ['\n'.toNat] from by
      unfold charUnits
      rw [if_pos (by decide)]]
    rfl
  rw [if_neg h3]
  by_cases h4 : c = '\r'
  · rw [if_pos h4]
    subst h4
    simp only [List.cons_append, List.nil_append]
    rw [parseUnits_esc 'r' '\r' t (by decide) (by decide)]
    rw [show charUnits '\r' = ['\r'.toNat] from by
      unfold charUnits
      rw [if_pos (by decide)]]
    rfl
  rw [if_neg h4]
  by_cases h5 : c = '\t'
  · rw [if_pos h5]
    subst h5
    simp only [List.cons_append, List.nil_append]
    rw [parseUnits_esc 't' '\t' t (by decide) (by decide)]
    rw [show charUnits '\t' = ['\t'.toNat] from by
      unfold charUnits
      rw [if_pos (by decide)]]
    rfl
  rw [if_neg h5]
  by_cases h6 : c.toNat = 8
  · rw [if_pos h6]
    simp only [List.cons_append, List.nil_append]
    rw [parseUnits_esc 'b' (Char.ofNat 8) t (by decide) (by decide)]
    rw [show charUnits c = [c.toNat] from by
      unfold charUnits
      rw [if_pos (by omega)]]
    rw [show (Char.ofNat 8).toNat = 8 from by decide, ← h6]
    rfl
  rw [if_neg h6]
  by_cases h7 : c.toNat = 12
  · rw [if_pos h7]
    simp only [List.cons_append, List.nil_append]
    rw [parseUnits_esc 'f' (Char.ofNat 12) t (by decide) (by decide)]
    rw [show charUnits c = [c.toNat] from by
      unfold charUnits
      rw [if_pos (by omega)]]
    rw [show (Char.ofNat 12).toNat = 12 from by decide, ← h7]
    rfl
  rw [if_neg h7]
  by_cases h8 : 0x20 ≤ c.toNat ∧ c.toNat ≤ 0x7e
  · rw [if_pos h8]
    simp only [List.cons_append, List.nil_append]
    rw [parseUnits_plain c t h1 h2]
    rw [show charUnits c = [c.toNat] from by
      unfold charUnits
      rw [if_pos (by omega)]]
    rfl
  rw [if_neg h8]
  by_cases h9 : c.toNat < 0x10000
  · rw [if_pos h9]
    simp only [List.cons_append, List.nil_append]
    rw [parseUnits_hex4 c.toNat h9 t]
    rw [show charUnits c = [c.toNat] from by
      unfold charUnits
      rw [if_pos h9]]
    rfl
  · rw [if_neg h9]
    simp only [List.cons_append, List.nil_append, List.append_assoc]
    rw [parseUnits_hex4 (0xD800 + (c.toNat - 0x10000) / 0x400) (by omega)]
    rw [parseUnits_hex4 (0xDC00 + (c.toNat - 0x10000) % 0x400) (by omega)]
    rw [show charUnits c =
        [0xD800 + (c.toNat - 0x10000) / 0x400,
         0xDC00 + (c.toNat - 0x10000) % 0x400] from by
      unfold charUnits
      rw [if_neg h9]]
    cases parseUnits t <;> rfl

theorem unitsToChars_charUnits (c : Char) (us : List Nat) :
    unitsToChars (charUnits c ++ us) =
      (unitsToChars us).map fun cs => c :: cs := by
  have hlt := char_toNat_lt c
  have hns := char_not_surrogate c
  unfold charUnits
  by_cases h : c.toNat < 0x10000
  · rw [if_pos h]
    simp only [List.cons_append, List.nil_append]
    rw [unitsToChars.eq_def]
    dsimp only
    rw [if_neg (by omega), if_neg (by omega), if_pos (by omega)]
    simp only [Char.ofNat_toNat]
  · rw [if_neg h]
    simp only [List.cons_append, List.nil_append]
    rw [unitsToChars.eq_def]
    dsimp only
    rw [if_pos (by omega), if_pos (by omega)]
    simp only [show 0x10000 +
        (0xD800 + (c.toNat - 0x10000) / 0x400 - 0xD800) * 0x400 +
        (0xDC00 + (c.toNat - 0x10000) % 0x400 - 0xDC00) = c.toNat from by omega,
      Char.ofNat_toNat]

theorem parseUnits_encodeAll (cs : List Char) (t : List Char) :
    parseUnits (cs.flatMap encodeChar ++ '"' :: t) =
      some (cs.flatMap charUnits, t) := by
  induction cs with
  | nil => simpa using parseUnits_quote t
  | cons c cs ih =>
      simp only [List.flatMap_cons, List.append_assoc]
      rw [parseUnits_encodeChar, ih]
      simp

theorem unitsToChars_flat (cs : List Char) :
    unitsToChars (cs.flatMap charUnits) = some cs := by
  induction cs with
  | nil => rfl
  | cons c cs ih =>
      simp only [List.flatMap_cons]
      rw [unitsToChars_charUnits, ih]
      rfl

theorem parseJStr_encodeJStr (s : String) (t : List Char) :
    parseJStr (encodeJStr s ++ t) = some (s, t) := by
  have hsh : encodeJStr s ++ t =
      '"' :: (s.data.flatMap encodeChar ++ '"' :: t) := by
    simp [encodeJStr]
  rw [hsh]
  simp only [parseJStr]
  rw [if_pos trivial, parseUnits_encodeAll]
  dsimp only
  rw [unitsToChars_flat]

/-- Decimal digit values of `n`, most significant first. -/
def digitsOf (n : Nat) : List Nat :=
  if h : n < 10 then [n] else digitsOf (n / 10) ++ [n % 10]
termination_by n
decreasing_by exact Nat.div_lt_self (by omega) (by omega)

theorem digit_toHex (n : Nat) (h : n < 10) :
    isDigitChar (toHexDigit n) = true ∧ (toHexDigit n).toNat - 48 = n := by
  interval_cases n <;> exact ⟨by decide, by decide⟩

theorem digit_facts (c : Char) (h : isDigitChar c = true) :
    c ≠ '-' ∧ c ≠ '"' ∧ isWs c = false := by
  refine ⟨?_, ?_, ?_⟩
  · intro hc
    subst hc
    exact absurd h (by decide)
  · intro hc
    subst hc
    exact absurd h (by decide)
  · cases hw : isWs c with
    | false => rfl
    | true =>
        unfold isWs at hw
        simp only [decide_eq_true_eq] at hw
        rcases hw with rfl | rfl | rfl | rfl <;> exact absurd h (by decide)

theorem takeDigits_printNat (n : Nat) (t : List Char) :
    takeDigits (printNatDigits n ++ t) =
      (digitsOf n ++ (takeDigits t).1, (takeDigits t).2) := by
  induction n using printNatDigits.induct generalizing t with
  | case1 n h =>
      rw [printNatDigits, dif_pos h, digitsOf, dif_pos h]
      simp only [List.singleton_append]
      simp only [takeDigits]
      rw [if_pos (digit_toHex n h).1, (digit_toHex n h).2]
  | case2 n h ih =>
      rw [printNatDigits, dif_neg h, digitsOf, dif_neg h]
      simp only [List.append_assoc, List.singleton_append]
      rw [ih]
      have hd := digit_toHex (n % 10) (by omega)
      simp only [takeDigits]
      rw [if_pos hd.1, hd.2]

theorem digitsToNat_append (ds : List Nat) (d : Nat) :
    digitsToNat (ds ++ [d]) = digitsToNat ds * 10 + d := by
  unfold digitsToNat
  rw [List.foldl_append]
  rfl

theorem digitsToNat_digitsOf (n : Nat) : digitsToNat (digitsOf n) = n := by
  induction n using digitsOf.induct with
  | case1 n h =>
      rw [digitsOf, dif_pos h]
      unfold digitsToNat
      simp
  | case2 n h ih =>
      rw [digitsOf, dif_neg h, digitsToNat_append, ih]
      omega

theorem digitsOf_ne_nil (n : Nat) : digitsOf n ≠ [] := by
  rw [digitsOf]
  by_cases h : n < 10
  · rw [dif_pos h]
    simp
  · rw [dif_neg h]
    simp

theorem printNatDigits_shape (n : Nat) :
    ∃ c cs, printNatDigits n = c :: cs ∧ isDigitChar c = true := by
  induction n using printNatDigits.induct with
  | case1 n h =>
      exact ⟨toHexDigit n, [], by rw [printNatDigits, dif_pos h],
        (digit_toHex n h).1⟩
  | case2 n h ih =>
      obtain ⟨c, cs, hpr, hdig⟩ := ih
      refine ⟨c, cs ++ [toHexDigit (n % 10)], ?_, hdig⟩
      rw [printNatDigits, dif_neg h, hpr]
      rfl

theorem printInt_shape (z : ℤ) :
    ∃ c cs, printInt z = c :: cs ∧ c ≠ '"' ∧ isWs c = false := by
  unfold printInt
  by_cases hz : z < 0
  · rw [if_pos hz]
    exact ⟨'-', printNatDigits z.natAbs, rfl, by decide, by decide⟩
  · rw [if_neg hz]
    obtain ⟨c, cs, hpr, hdig⟩ := printNatDigits_shape z.natAbs
    exact ⟨c, cs, hpr, (digit_facts c hdig).2.1, (digit_facts c hdig).2.2⟩

theorem printVal_shape (v : PVal) :
    ∃ c cs, printVal v = c :: cs ∧ isWs c = false := by
  cases v with
  | int z =>
      obtain ⟨c, cs, hpr, _, hws⟩ := printInt_shape z
      exact ⟨c, cs, hpr, hws⟩
  | str s =>
      exact ⟨'"', s.data.flatMap encodeChar ++ ['"'], rfl, by decide⟩

theorem skipWs_cons_true (c : Char) (l : List Char) (h : isWs c = true) :
    skipWs (c :: l) = skipWs l := by
  simp [skipWs, h]

theorem skipWs_cons_false (c : Char) (l : List Char) (h : isWs c = false) :
    skipWs (c :: l) = c :: l := by
  simp [skipWs, h]

theorem parseJInt_printInt (z : ℤ) (t : List Char)
    (hstop : takeDigits t = ([], t)) :
    parseJInt (printInt z ++ t) = some (z, t) := by
  unfold printInt
  by_cases hz : z < 0
  · rw [if_pos hz]
    simp only [List.cons_append]
    unfold parseJInt
    rw [if_pos (by rfl)]
    simp only [List.tail_cons]
    rw [takeDigits_printNat, hstop]
    simp only [List.append_nil]
    rcases hds : digitsOf z.natAbs with _ | ⟨d, ds⟩
    · exact absurd hds (digitsOf_ne_nil z.natAbs)
    · dsimp only
      rw [← hds, digitsToNat_digitsOf]
      have : -((z.natAbs : ℤ)) = z := by omega
      rw [this]
  · rw [if_neg hz]
    obtain ⟨c, cs, hpr, hdig⟩ := printNatDigits_shape z.natAbs
    unfold parseJInt
    rw [if_neg (by
      rw [hpr]
      simp only [List.cons_append, List.head?_cons, Option.some.injEq]
      exact (digit_facts c hdig).1)]
    rw [takeDigits_printNat, hstop]
    simp only [List.append_nil]
    rcases hds : digitsOf z.natAbs with _ | ⟨d, ds⟩
    · exact absurd hds (digitsOf_ne_nil z.natAbs)
    · dsimp only
      rw [← hds, digitsToNat_digitsOf]
      have : ((z.natAbs : ℤ)) = z := by omega
      rw [this]

theorem parseJVal_printVal (v : PVal) (t : List Char)
    (hstop : takeDigits t = ([], t)) :
    parseJVal (printVal v ++ t) = some (v, t) := by
  cases v with
  | str s =>
      simp only [printVal]
      unfold parseJVal
      rw [if_pos (by simp [encodeJStr])]
      rw [parseJStr_encodeJStr]
  | int z =>
      simp only [printVal]
      obtain ⟨c, cs, hpr, hq, _⟩ := printInt_shape z
      unfold parseJVal
      rw [if_neg (by
        rw [hpr]
        simp only [List.cons_append, List.head?_cons, Option.some.injEq]
        exact hq)]
      rw [parseJInt_printInt z t hstop]

theorem takeDigits_nondigit (c : Char) (l : List Char)
    (h : isDigitChar c = false) : takeDigits (c :: l) = ([], c :: l) := by
  simp only [takeDigits]
  rw [if_neg (by simp [h])]

theorem parsePairs_dumpEntries (entries : Inventory) (t : List Char)
    (hne : entries ≠ []) :
    parsePairs ('\n' :: (dumpEntries entries ++ '\n' :: '}' :: t)) =
      some (entries, t) := by
  induction entries generalizing t with
  | nil => exact absurd rfl hne
  | cons e rest ih =>
      obtain ⟨k, v⟩ := e
      obtain ⟨pc, pcs, hpv, hpws⟩ := printVal_shape v
      cases rest with
      | nil =>
          have h1 : skipWs ('\n' :: (dumpEntries [(k, v)] ++ '\n' :: '}' :: t)) =
              encodeJStr k ++ ':' :: ' ' :: (printVal v ++ '\n' :: '}' :: t) := by
            rw [skipWs_cons_true _ _ (by decide)]
            rw [show dumpEntries [(k, v)] ++ '\n' :: '}' :: t =
                ' ' :: ' ' :: ' ' :: ' ' ::
                  ('"' :: (k.data.flatMap encodeChar ++ '"' ::
                    (':' :: ' ' :: (printVal v ++ '\n' :: '}' :: t)))) from by
              simp [dumpEntries, encodeJStr]]
            rw [skipWs_cons_true _ _ (by decide),
                skipWs_cons_true _ _ (by decide),
                skipWs_cons_true _ _ (by decide),
                skipWs_cons_true _ _ (by decide),
                skipWs_cons_false _ _ (by decide)]
            simp [encodeJStr]
          rw [parsePairs.eq_def, h1, parseJStr_encodeJStr]
          dsimp only
          rw [skipWs_cons_false _ _ (by decide)]
          dsimp only
          rw [skipWs_cons_true _ _ (by decide)]
          rw [show printVal v ++ '\n' :: '}' :: t =
              pc :: (pcs ++ '\n' :: '}' :: t) from by rw [hpv]; simp]
          rw [skipWs_cons_false _ _ hpws]
          rw [show pc :: (pcs ++ '\n' :: '}' :: t) =
              printVal v ++ '\n' :: '}' :: t from by rw [hpv]; simp]
          rw [parseJVal_printVal v _ (takeDigits_nondigit '\n' _ (by decide))]
          dsimp only
          rw [skipWs_cons_true _ _ (by decide),
              skipWs_cons_false _ _ (by decide)]
          rw [if_pos rfl]
          dsimp only
          rw [if_neg (by decide), if_pos rfl]
      | cons e2 rest2 =>
          have h1 : skipWs ('\n' :: (dumpEntries ((k, v) :: e2 :: rest2) ++
                '\n' :: '}' :: t)) =
              encodeJStr k ++ ':' :: ' ' :: (printVal v ++ ',' :: '\n' ::
                (dumpEntries (e2 :: rest2) ++ '\n' :: '}' :: t)) := by
            rw [skipWs_cons_true _ _ (by decide)]
            rw [show dumpEntries ((k, v) :: e2 :: rest2) ++ '\n' :: '}' :: t =
                ' ' :: ' ' :: ' ' :: ' ' ::
                  ('"' :: (k.data.flatMap encodeChar ++ '"' ::
                    (':' :: ' ' :: (printVal v ++ ',' :: '\n' ::
                      (dumpEntries (e2 :: rest2) ++ '\n' :: '}' :: t))))) from by
              simp [dumpEntries, encodeJStr]]
            rw [skipWs_cons_true _ _ (by decide),
                skipWs_cons_true _ _ (by decide),
                skipWs_cons_true _ _ (by decide),
                skipWs_cons_true _ _ (by decide),
                skipWs_cons_false _ _ (by decide)]
            simp [encodeJStr]
          rw [parsePairs.eq_def, h1, parseJStr_encodeJStr]
          dsimp only
          rw [skipWs_cons_false _ _ (by decide)]
          dsimp only
          rw [skipWs_cons_true _ _ (by decide)]
          rw [show printVal v ++ ',' :: '\n' ::
              (dumpEntries (e2 :: rest2) ++ '\n' :: '}' :: t) =
              pc :: (pcs ++ ',' :: '\n' ::
                (dumpEntries (e2 :: rest2) ++ '\n' :: '}' :: t)) from by
            rw [hpv]; simp]
          rw [skipWs_cons_false _ _ hpws]
          rw [show pc :: (pcs ++ ',' :: '\n' ::
              (dumpEntries (e2 :: rest2) ++ '\n' :: '}' :: t)) =
              printVal v ++ ',' :: '\n' ::
                (dumpEntries (e2 :: rest2) ++ '\n' :: '}' :: t) from by
            rw [hpv]; simp]
          rw [parseJVal_printVal v _ (takeDigits_nondigit ',' _ (by decide))]
          dsimp only
          rw [skipWs_cons_false _ _ (by decide)]
          rw [if_pos rfl]
          dsimp only
          rw [if_pos rfl, ih t (by simp)]
          rfl

/-- Build the Python dict from the parsed pairs, as the decoder does: the
first occurrence of a key fixes its position, the last binding wins. -/
def buildDict (pairs : List (String × PVal)) : Inventory :=
  pairs.foldl (fun d p => Inventory.setKey d p.1 p.2) []

/-- `json.loads` on the object-of-scalars fragment: one JSON object with
nothing but whitespace around it. -/
def json_loads (text : List Char) : Option Inventory :=
  match skipWs text with
  | c :: rest =>
      if c = '{' then
        match skipWs rest with
        | c2 :: rest2 =>
            if c2 = '}' then
              if (skipWs rest2).isEmpty then some [] else none
            else
              match parsePairs rest with
              | some (pairs, rest3) =>
                  if (skipWs rest3).isEmpty then some (buildDict pairs) else none
              | none => none
        | [] =>
            match parsePairs rest with
            | some (pairs, rest3) =>
                if (skipWs rest3).isEmpty then some (buildDict pairs) else none
            | none => none
      else none
  | [] => none

/-- The file store: the contents of each path, `none` when absent. -/
abbrev FileSys : Type := String → Option (List Char)

/-- `save_data(stock_data, file)`: writes `json.dump(stock_data, f, indent=4)`
to `file` (the `IOError` handler is not reachable in this model of a
writable store). -/
def save_data (fs : FileSys) (stock : Inventory) (file : String) : FileSys :=
  fun p => if p = file then some (dumps stock) else fs p

/-- `load_data(file)`: `json.load` of the file's contents; a missing file
(`FileNotFoundError`) or unparsable contents (`JSONDecodeError`) degrade to
the empty inventory after a logged warning/error. -/
def load_data (fs : FileSys) (file : String) : Inventory :=
  match fs file with
  | none => []
  | some text =>
      match json_loads text with
      | some inv => inv
      | none => []

theorem skipWs_dumpEntries (entries : Inventory) (t : List Char)
    (hne : entries ≠ []) :
    ∃ y, skipWs ('\n' :: (dumpEntries entries ++ t)) = '"' :: y := by
  obtain ⟨⟨k, v⟩, rest, rfl⟩ : ∃ e r, entries = e :: r := by
    cases entries with
    | nil => exact absurd rfl hne
    | cons e r => exact ⟨e, r, rfl⟩
  rw [skipWs_cons_true _ _ (by decide)]
  cases rest with
  | nil =>
      rw [show dumpEntries [(k, v)] ++ t =
          ' ' :: ' ' :: ' ' :: ' ' ::
            ('"' :: (k.data.flatMap encodeChar ++ '"' ::
              (':' :: ' ' :: (printVal v ++ t)))) from by
        simp [dumpEntries, encodeJStr]]
      rw [skipWs_cons_true _ _ (by decide), skipWs_cons_true _ _ (by decide),
          skipWs_cons_true _ _ (by decide), skipWs_cons_true _ _ (by decide),
          skipWs_cons_false _ _ (by decide)]
      exact ⟨_, rfl⟩
  | cons e2 rest2 =>
      rw [show dumpEntries ((k, v) :: e2 :: rest2) ++ t =
          ' ' :: ' ' :: ' ' :: ' ' ::
            ('"' :: (k.data.flatMap encodeChar ++ '"' ::
              (':' :: ' ' :: (printVal v ++ ',' :: '\n' ::
                (dumpEntries (e2 :: rest2) ++ t))))) from by
        simp [dumpEntries, encodeJStr]]
      rw [skipWs_cons_true _ _ (by decide), skipWs_cons_true _ _ (by decide),
          skipWs_cons_true _ _ (by decide), skipWs_cons_true _ _ (by decide),
          skipWs_cons_false _ _ (by decide)]
      exact ⟨_, rfl⟩

theorem json_loads_dumps (stock : Inventory) :
    json_loads (dumps stock) = some (buildDict stock) := by
  cases stock with
  | nil => decide
  | cons e rest =>
      obtain ⟨y, hy⟩ := skipWs_dumpEntries (e :: rest) ['\n', '}'] (by simp)
      unfold dumps json_loads
      rw [skipWs_cons_false _ _ (by decide)]
      dsimp only
      rw [if_pos rfl, hy]
      dsimp only
      rw [if_neg (by decide)]
      rw [parsePairs_dumpEntries (e :: rest) [] (by simp)]
      dsimp only
      rw [if_pos (by decide)]

theorem setKey_append_absent (acc : Inventory) (k : String) (v : PVal)
    (h : Inventory.lookup acc k = none) :
    Inventory.setKey acc k v = acc ++ [(k, v)] := by
  induction acc with
  | nil => rfl
  | cons p rest ih =>
      obtain ⟨k₀, v₀⟩ := p
      simp only [Inventory.lookup_cons] at h
      by_cases h₀ : k₀ = k
      · rw [if_pos h₀] at h
        cases h
      · rw [if_neg h₀] at h
        simp only [Inventory.setKey, if_neg h₀, List.cons_append]
        rw [ih h]

theorem lookup_append_singleton (acc : Inventory) (k x : String) (v : PVal)
    (h : Inventory.lookup acc x = none) (hx : k ≠ x) :
    Inventory.lookup (acc ++ [(k, v)]) x = none := by
  induction acc with
  | nil => simp [Inventory.lookup, hx]
  | cons p rest ih =>
      obtain ⟨k₀, v₀⟩ := p
      simp only [List.cons_append, Inventory.lookup_cons] at h ⊢
      by_cases h₀ : k₀ = x
      · rw [if_pos h₀] at h
        cases h
      · rw [if_neg h₀] at h ⊢
        exact ih h

theorem buildDict_eq (entries : Inventory) (hwf : Inventory.WF entries) :
    buildDict entries = entries := by
  suffices h : ∀ acc : Inventory,
      (∀ p ∈ entries, Inventory.lookup acc p.1 = none) →
      List.foldl (fun d p => Inventory.setKey d p.1 p.2) acc entries
        = acc ++ entries by
    simpa using h [] (fun p _ => rfl)
  induction entries with
  | nil =>
      intro acc _
      simp
  | cons e rest ih =>
      intro acc hdisj
      obtain ⟨k, v⟩ := e
      unfold Inventory.WF at hwf
      simp only [List.map_cons, List.nodup_cons] at hwf
      simp only [List.foldl_cons]
      rw [setKey_append_absent acc k v (hdisj (k, v) (List.mem_cons_self _ _))]
      rw [ih hwf.2 (acc ++ [(k, v)]) ?_]
      · simp
      · intro p hp
        refine lookup_append_singleton acc k p.1 v
          (hdisj p (List.mem_cons_of_mem _ hp)) ?_
        intro hk
        exact hwf.1 (List.mem_map.mpr ⟨p, hp, hk.symm⟩)

theorem C6_witness :
    remove_item [("x", PVal.str "abc")] (PVal.str "x") (PVal.int 5) =
      ([("x", PVal.str "abc")],
        [LogEvent.errorRemoveType "x" (PVal.int 5)]) ∧
    add_item [("x", PVal.str "abc")] (PVal.str "x") (PVal.int 5) [] "t" =
      Except.error PyExc.typeError := by
  have h := C6_exception_policy [("x", PVal.str "abc")] "x" "abc" 5 [] "t"
    (by decide)
  exact ⟨(h.1 (by decide)).1, h.2.mpr ⟨"abc", by decide⟩⟩

/-- **C9**: saving any inventory (distinct keys, as every Python dict has)
and loading from the same path reproduces an equal mapping: same keys, same
values, in the same order. -/
theorem C9_round_trip (fs : FileSys) (stock : Inventory) (file : String)
    (hwf : Inventory.WF stock) :
    load_data (save_data fs stock file) file = stock := by
  unfold load_data save_data
  rw [if_pos rfl]
  dsimp only
  rw [json_loads_dumps]
  exact buildDict_eq stock hwf

theorem C9_witness :
    load_data
      (save_data (fun _ => none)
        [("apple", PVal.int 10), ("banana", PVal.int 3)] "inventory.json")
      "inventory.json"
      = [("apple", PVal.int 10), ("banana", PVal.int 3)] :=
  C9_round_trip (fun _ => none)
    [("apple", PVal.int 10), ("banana", PVal.int 3)] "inventory.json"
    (by simp [Inventory.WF])
